import Mathlib

/-!
Verification of the l10n-build-stats completion-statistics scripts.

The Python sources under scripts/ are shallowly embedded below:
Python dicts (which preserve insertion order and have unique keys) are
modelled as association lists with in-place update, Python lists as Lean
lists, Python str as Lean String (or List Char where character-level
reasoning about regular expressions is needed), Python int as Nat/Int,
and Python float results as exact rationals, with round(x, 4) modelled
as the ideal decimal round-half-even at 4 places.  Code that raises an
exception is modelled with Except.
-/

/-- Association-list lookup, modelling Python dict access `m.get(k)`. -/
def alGet {κ α : Type} [DecidableEq κ] (m : List (κ × α)) (k : κ) : Option α :=
  match m with
  | [] => none
  | (k0, v0) :: rest => if k0 = k then some v0 else alGet rest k

/-- Association-list update, modelling Python dict assignment `m[k] = v`:
an existing key is updated in place (keeping its position), a new key is
appended at the end, matching dict insertion order. -/
def alSet {κ α : Type} [DecidableEq κ] (m : List (κ × α)) (k : κ) (v : α) :
    List (κ × α) :=
  match m with
  | [] => [(k, v)]
  | (k0, v0) :: rest => if k0 = k then (k, v) :: rest else (k0, v0) :: alSet rest k v

/-- Association-list deletion, modelling Python `m.pop(k)`. -/
def alErase {κ α : Type} [DecidableEq κ] (m : List (κ × α)) (k : κ) :
    List (κ × α) :=
  match m with
  | [] => []
  | (k0, v0) :: rest => if k0 = k then alErase rest k else (k0, v0) :: alErase rest k

theorem alGet_alSet_self {κ α : Type} [DecidableEq κ] (m : List (κ × α)) (k : κ)
    (v : α) : alGet (alSet m k v) k = some v := by
  induction m with
  | nil => simp [alGet, alSet]
  | cons p rest ih =>
    by_cases h : p.1 = k <;> simp [alGet, alSet, h, ih]

theorem alGet_alSet_ne {κ α : Type} [DecidableEq κ] (m : List (κ × α)) (k k' : κ)
    (v : α) (h : k' ≠ k) : alGet (alSet m k v) k' = alGet m k' := by
  have hkk : k ≠ k' := fun e => h (Eq.symm e)
  induction m with
  | nil => simp only [alSet, alGet, if_neg hkk]
  | cons p rest ih =>
    rcases p with ⟨k0, v0⟩
    by_cases h0 : k0 = k
    · subst h0
      simp only [alSet, if_pos rfl, alGet, if_neg hkk]
    · simp only [alSet, if_neg h0, alGet]
      by_cases h1 : k0 = k'
      · rw [if_pos h1, if_pos h1]
      · rw [if_neg h1, if_neg h1]
        exact ih

theorem alGet_alErase_self {κ α : Type} [DecidableEq κ] (m : List (κ × α))
    (k : κ) : alGet (alErase m k) k = none := by
  induction m with
  | nil => simp [alGet, alErase]
  | cons p rest ih =>
    by_cases h : p.1 = k <;> simp [alGet, alErase, h, ih]

theorem alGet_alErase_ne {κ α : Type} [DecidableEq κ] (m : List (κ × α))
    (k k' : κ) (h : k' ≠ k) : alGet (alErase m k) k' = alGet m k' := by
  have hkk : k ≠ k' := fun e => h (Eq.symm e)
  induction m with
  | nil => simp only [alErase]
  | cons p rest ih =>
    rcases p with ⟨k0, v0⟩
    by_cases h0 : k0 = k
    · subst h0
      simp only [alErase, if_pos rfl, alGet, if_neg hkk]
      exact ih
    · simp only [alErase, if_neg h0, alGet]
      by_cases h1 : k0 = k'
      · rw [if_pos h1, if_pos h1]
      · rw [if_neg h1, if_neg h1]
        exact ih

theorem keys_alSet_of_mem {κ α : Type} [DecidableEq κ] (m : List (κ × α))
    (k : κ) (v : α) (h : (alGet m k).isSome) :
    (alSet m k v).map Prod.fst = m.map Prod.fst := by
  induction m with
  | nil => simp [alGet] at h
  | cons p rest ih =>
    by_cases h0 : p.1 = k
    · simp [alSet, h0]
    · simp [alGet, h0] at h
      simp [alSet, h0, ih h]

theorem alGet_isSome_of_mem_keys {κ α : Type} [DecidableEq κ]
    (m : List (κ × α)) (k : κ) (h : k ∈ m.map Prod.fst) : (alGet m k).isSome := by
  induction m with
  | nil => simp at h
  | cons p rest ih =>
    by_cases h0 : p.1 = k
    · simp [alGet, h0]
    · rw [List.map_cons] at h
      rcases List.mem_cons.mp h with h1 | h1
      · exact absurd (Eq.symm h1) h0
      · simp [alGet, h0, ih h1]

theorem mem_alSet_elim {κ α : Type} [DecidableEq κ] (m : List (κ × α)) (k : κ)
    (v : α) (p : κ × α) (h : p ∈ alSet m k v) : p = (k, v) ∨ p ∈ m := by
  induction m with
  | nil => simp [alSet] at h; simp [h]
  | cons q rest ih =>
    by_cases h0 : q.1 = k
    · simp [alSet, h0] at h
      rcases h with h | h
      · exact Or.inl h
      · exact Or.inr (List.mem_cons_of_mem q h)
    · simp [alSet, h0] at h
      rcases h with h | h
      · exact Or.inr (by simp [h])
      · rcases ih h with h1 | h1
        · exact Or.inl h1
        · exact Or.inr (List.mem_cons_of_mem q h1)

/-- Generic preservation of a predicate along List.foldl. -/
theorem foldl_preserve {α β : Type} (P : α → Prop) (f : α → β → α) (l : List β)
    (a : α) (hstep : ∀ t x, x ∈ l → P t → P (f t x)) (h0 : P a) :
    P (l.foldl f a) := by
  induction l generalizing a with
  | nil => exact h0
  | cons x rest ih =>
    exact ih (f a x) (fun t y hy ht => hstep t y (List.mem_cons_of_mem x hy) ht)
      (hstep a x (List.mem_cons_self x rest) h0)

/-- Round a rational to the nearest integer, ties to even: the ideal model
of Python built-in round on an exactly representable value. -/
def rhe (q : ℚ) : ℤ :=
  if q - (⌊q⌋ : ℚ) < 1 / 2 then ⌊q⌋
  else if 1 / 2 < q - (⌊q⌋ : ℚ) then ⌊q⌋ + 1
  else if ⌊q⌋ % 2 = 0 then ⌊q⌋ else ⌊q⌋ + 1

/-- Model of Python round(x, 4): round to 4 decimal places, ties to even. -/
def round4 (q : ℚ) : ℚ := ((rhe (q * 10000) : ℤ) : ℚ) / 10000

theorem floor_le_rhe (q : ℚ) : ⌊q⌋ ≤ rhe q := by
  unfold rhe
  split
  · exact le_refl _
  · split
    · omega
    · split
      · exact le_refl _
      · omega

theorem rhe_le_ceil (q : ℚ) : rhe q ≤ ⌈q⌉ := by
  unfold rhe
  split
  · exact Int.floor_le_ceil q
  · rename_i h1
    have hge : (1 : ℚ) / 2 ≤ q - (⌊q⌋ : ℚ) := le_of_not_lt h1
    have hlt : (⌊q⌋ : ℚ) < q := by linarith
    have hstep : ⌊q⌋ + 1 ≤ ⌈q⌉ := Int.add_one_le_ceil_iff.mpr hlt
    split
    · exact hstep
    · split
      · exact Int.floor_le_ceil q
      · exact hstep

theorem round4_nonneg (q : ℚ) (h : 0 ≤ q) : 0 ≤ round4 q := by
  unfold round4
  have h1 : (0 : ℤ) ≤ ⌊q * 10000⌋ := Int.le_floor.mpr (by positivity)
  have h2 : (0 : ℤ) ≤ rhe (q * 10000) := le_trans h1 (floor_le_rhe _)
  positivity

theorem round4_le_one (q : ℚ) (h : q ≤ 1) : round4 q ≤ 1 := by
  unfold round4
  have h1 : ⌈q * 10000⌉ ≤ (10000 : ℤ) := Int.ceil_le.mpr (by push_cast; linarith)
  have h2 : rhe (q * 10000) ≤ (10000 : ℤ) := le_trans (rhe_le_ceil _) h1
  have h3 : ((rhe (q * 10000) : ℤ) : ℚ) ≤ ((10000 : ℤ) : ℚ) := by exact_mod_cast h2
  rw [div_le_one (by norm_num)]
  exact_mod_cast h3

/-- Integer-level round-half-even of the fraction a / b (for b ≠ 0), used to
evaluate round4 on concrete ratios of counts. -/
def rheN (a b : ℕ) : ℤ :=
  if a % b * 2 < b then (a / b : ℕ)
  else if b < a % b * 2 then (a / b : ℕ) + 1
  else if a / b % 2 = 0 then (a / b : ℕ) else (a / b : ℕ) + 1

theorem floor_natCast_div (a b : ℕ) : ⌊(a : ℚ) / (b : ℚ)⌋ = ((a / b : ℕ) : ℤ) := by
  rw [Rat.floor_natCast_div_natCast a b]
  omega

theorem rhe_natCast_div (a b : ℕ) (hb : b ≠ 0) :
    rhe ((a : ℚ) / (b : ℚ)) = rheN a b := by
  have hb0 : (0 : ℚ) < (b : ℚ) := by
    exact_mod_cast Nat.pos_of_ne_zero hb
  have hfl := floor_natCast_div a b
  have hmod := Nat.div_add_mod a b
  have hcast : (b : ℚ) * ((a / b : ℕ) : ℚ) + ((a % b : ℕ) : ℚ) = (a : ℚ) := by
    exact_mod_cast congrArg (Nat.cast : ℕ → ℚ) hmod
  have hne : (b : ℚ) ≠ 0 := ne_of_gt hb0
  have hfrac : (a : ℚ) / (b : ℚ) - (((a / b : ℕ) : ℤ) : ℚ) =
      ((a % b : ℕ) : ℚ) / (b : ℚ) := by
    rw [Int.cast_natCast]
    field_simp
    linarith
  have h1 : ((a % b : ℕ) : ℚ) / (b : ℚ) < 1 / 2 ↔ a % b * 2 < b := by
    rw [div_lt_div_iff₀ hb0 (by norm_num : (0 : ℚ) < 2), one_mul]
    exact_mod_cast Iff.rfl
  have h2 : (1 : ℚ) / 2 < ((a % b : ℕ) : ℚ) / (b : ℚ) ↔ b < a % b * 2 := by
    rw [div_lt_div_iff₀ (by norm_num : (0 : ℚ) < 2) hb0, one_mul]
    exact_mod_cast Iff.rfl
  have h3 : (((a / b : ℕ) : ℤ) % 2 = 0) ↔ (a / b % 2 = 0) := by omega
  unfold rhe rheN
  rw [hfl, hfrac]
  simp only [h1, h2, h3]

theorem round4_natCast_div (a b : ℕ) (hb : b ≠ 0) :
    round4 ((a : ℚ) / (b : ℚ)) = ((rheN (10000 * a) b : ℤ) : ℚ) / 10000 := by
  unfold round4
  have harg : (a : ℚ) / (b : ℚ) * 10000 = ((10000 * a : ℕ) : ℚ) / ((b : ℕ) : ℚ) := by
    push_cast
    ring
  rw [harg, rhe_natCast_div _ _ hb]

/-- StringList from functions.py: nested dict file-key -> locale -> id list. -/
abbrev StringTable := List (String × List (String × List String))

/-- Identifier list stored for a file-key and locale; mirrors Python
`string_list[k].get(l, [])` (absent keys read as the empty list). -/
def getIds (t : StringTable) (k l : String) : List String :=
  (alGet ((alGet t k).getD []) l).getD []

/-- Assignment `string_list[k][l] = v`. -/
def setLoc (t : StringTable) (k l : String) (v : List String) : StringTable :=
  alSet t k (alSet ((alGet t k).getD []) l v)

/-- Append `string_list[k][l].append(id)`; at every call site in the source
the key and locale slots already exist. -/
def appendId (t : StringTable) (k l : String) (id : String) : StringTable :=
  setLoc t k l (getIds t k l ++ [id])

/-- Model of functions.store_completion line 41-43: total number of source
("reference") identifiers across all file-keys. -/
def sourceStats (t : StringTable) : Nat :=
  (t.map (fun p => (getIds t p.1 "source").length)).sum

/-- Model of functions.store_completion line 48-50: total number of
identifiers stored for a locale across all file-keys. -/
def localeStats (t : StringTable) (locale : String) : Nat :=
  (t.map (fun p => (getIds t p.1 locale).length)).sum

/-- Locale loop of functions.store_completion (lines 45-51), with the
completion dict as an ordered association list and ZeroDivisionError
modelled as an Except error. -/
def storeCompletionGo (t : StringTable) (acc : List (String × ℚ)) :
    List String → Except String (List (String × ℚ))
  | [] => .ok acc
  | l :: rest =>
    if l = "source" then storeCompletionGo t acc rest
    else if sourceStats t = 0 then .error "ZeroDivisionError"
    else
      storeCompletionGo t
        (alSet acc l (round4 ((localeStats t l : ℚ) / (sourceStats t : ℚ)))) rest

/-- Model of functions.store_completion, restricted to the completion
computation (the JSON write and the log lines are I/O). -/
def store_completion (t : StringTable) (locales : List String) :
    Except String (List (String × ℚ)) :=
  storeCompletionGo t [] locales

/-- Model of the tail of base_stats.StatsExtractor.run (lines 117-122):
any exception escaping the extraction is caught and turned into
sys.exit(1); a normal return exits 0. -/
def runExitCode {α : Type} (r : Except String α) : Nat :=
  match r with
  | .ok _ => 0
  | .error _ => 1

/-- Value stored by store_completion for one locale (line 51 of
functions.py): the locale/source ratio rounded to 4 decimal places. -/
def completionValue (t : StringTable) (l : String) : ℚ :=
  round4 ((localeStats t l : ℚ) / (sourceStats t : ℚ))

theorem storeCompletionGo_ok (t : StringTable) (h : sourceStats t ≠ 0) :
    ∀ (locales : List String) (acc : List (String × ℚ)),
      ∃ res, storeCompletionGo t acc locales = .ok res ∧
        ∀ l : String,
          ((l ∈ locales ∧ l ≠ "source") → alGet res l = some (completionValue t l)) ∧
          (l ∉ locales → alGet res l = alGet acc l) := by
  intro locales
  induction locales with
  | nil =>
    intro acc
    refine ⟨acc, rfl, ?_⟩
    intro l
    constructor
    · rintro ⟨hl, -⟩
      simp at hl
    · intro _
      rfl
  | cons x rest ih =>
    intro acc
    by_cases hx : x = "source"
    · subst hx
      obtain ⟨res, heq, hP⟩ := ih acc
      refine ⟨res, ?_, ?_⟩
      · simp only [storeCompletionGo, if_pos rfl]
        exact heq
      · intro l
        constructor
        · rintro ⟨hl, hls⟩
          rcases List.mem_cons.mp hl with h1 | h1
          · exact absurd h1 hls
          · exact (hP l).1 ⟨h1, hls⟩
        · intro hl
          exact (hP l).2 (fun hm => hl (List.mem_cons_of_mem _ hm))
    · obtain ⟨res, heq, hP⟩ := ih (alSet acc x (completionValue t x))
      refine ⟨res, ?_, ?_⟩
      · simp only [storeCompletionGo, if_neg hx, if_neg h]
        exact heq
      · intro l
        constructor
        · rintro ⟨hl, hls⟩
          by_cases hlr : l ∈ rest
          · exact (hP l).1 ⟨hlr, hls⟩
          · have hlx : l = x := by
              rcases List.mem_cons.mp hl with h1 | h1
              · exact h1
              · exact absurd h1 hlr
            rw [(hP l).2 hlr, hlx]
            exact alGet_alSet_self acc x _
        · intro hl
          have hlr : l ∉ rest := fun hm => hl (List.mem_cons_of_mem _ hm)
          have hlx : l ≠ x := fun e => hl (e ▸ List.mem_cons_self x rest)
          rw [(hP l).2 hlr, alGet_alSet_ne acc x l _ hlx]

theorem storeCompletionGo_zero (t : StringTable) (h : sourceStats t = 0) :
    ∀ (locales : List String) (acc : List (String × ℚ)),
      (∃ l ∈ locales, l ≠ "source") →
      storeCompletionGo t acc locales = .error "ZeroDivisionError" := by
  intro locales
  induction locales with
  | nil =>
    rintro acc ⟨l, hl, -⟩
    simp at hl
  | cons x rest ih =>
    rintro acc ⟨l, hl, hls⟩
    by_cases hx : x = "source"
    · subst hx
      have hlr : l ∈ rest := by
        rcases List.mem_cons.mp hl with h1 | h1
        · exact absurd h1 hls
        · exact h1
      simp only [storeCompletionGo, if_pos rfl]
      exact ih acc ⟨l, hlr, hls⟩
    · simp only [storeCompletionGo, if_neg hx, if_pos h]

theorem storeCompletionGo_keys (t : StringTable) :
    ∀ (locales : List String) (acc res : List (String × ℚ)),
      (∀ p ∈ acc, (p : String × ℚ).1 ≠ "source") →
      storeCompletionGo t acc locales = .ok res →
      ∀ p ∈ res, (p : String × ℚ).1 ≠ "source" := by
  intro locales
  induction locales with
  | nil =>
    intro acc res hacc heq
    cases heq
    exact hacc
  | cons x rest ih =>
    intro acc res hacc heq
    by_cases hx : x = "source"
    · subst hx
      simp only [storeCompletionGo, if_pos rfl] at heq
      exact ih acc res hacc heq
    · simp only [storeCompletionGo, if_neg hx] at heq
      by_cases h0 : sourceStats t = 0
      · rw [if_pos h0] at heq
        cases heq
      · rw [if_neg h0] at heq
        refine ih _ res ?_ heq
        intro p hp
        rcases mem_alSet_elim acc x _ p hp with h1 | h1
        · rw [h1]
          exact hx
        · exact hacc p h1

theorem storeCompletionGo_vals (t : StringTable) :
    ∀ (locales : List String) (acc res : List (String × ℚ)),
      (∀ p ∈ acc, (p : String × ℚ).2 = completionValue t p.1) →
      storeCompletionGo t acc locales = .ok res →
      ∀ p ∈ res, (p : String × ℚ).2 = completionValue t p.1 := by
  intro locales
  induction locales with
  | nil =>
    intro acc res hacc heq
    cases heq
    exact hacc
  | cons x rest ih =>
    intro acc res hacc heq
    by_cases hx : x = "source"
    · subst hx
      simp only [storeCompletionGo, if_pos rfl] at heq
      exact ih acc res hacc heq
    · simp only [storeCompletionGo, if_neg hx] at heq
      by_cases h0 : sourceStats t = 0
      · rw [if_pos h0] at heq
        cases heq
      · rw [if_neg h0] at heq
        refine ih _ res ?_ heq
        intro p hp
        rcases mem_alSet_elim acc x _ p hp with h1 | h1
        · rw [h1]
          simp [completionValue]
        · exact hacc p h1

theorem completionValue_nonneg (t : StringTable) (l : String) :
    0 ≤ completionValue t l := by
  unfold completionValue
  exact round4_nonneg _ (by positivity)

theorem completionValue_le_one (t : StringTable) (l : String)
    (h : localeStats t l ≤ sourceStats t) (h0 : sourceStats t ≠ 0) :
    completionValue t l ≤ 1 := by
  unfold completionValue
  refine round4_le_one _ ?_
  rw [div_le_one (by exact_mod_cast Nat.pos_of_ne_zero h0)]
  exact_mod_cast h

/-- Model of a moz.l10n Entry as used by functions.parse_file: its id path,
whether entry.meta is set, and the two metadata values the code reads.
The removedIn marker holds the integer value of the removedIn annotation
(Python converts the string with int()). -/
structure Entry where
  id : List String
  metaPresent : Bool
  removedIn : Option ℤ
  toolsIgnore : Option String
  properties : List String

/-- Items of a section: parse_file skips anything that is not an Entry
(comments etc., the isinstance check at line 225). -/
inductive ResItem
  | comment
  | entry (e : Entry)

/-- Model of a moz.l10n section: id path plus entries. -/
structure Sec where
  id : List String
  entries : List ResItem

/-- Model of a parsed moz.l10n resource. -/
structure Resource where
  sections : List Sec

/-- Outcome of parse_resource: an UnsupportedFormat error, any other
exception, or a parsed resource. -/
inductive ParseResult
  | unsupported
  | failed
  | ok (r : Resource)

/-- Python str() on an optional string: None prints as "None". -/
def optStr (o : Option String) : String :=
  match o with
  | some s => s
  | none => "None"

/-- Splitting of a character list at commas, the model of Python
str.split(","): an empty input yields one empty piece, like Python. -/
def splitCommaChars : List Char → List (List Char)
  | [] => [[]]
  | c :: rest =>
    match splitCommaChars rest with
    | [] => [[]]
    | h :: t => if c = ',' then [] :: h :: t else (c :: h) :: t

/-- Decimal value of a digit list, the model of Python int() on the
digit strings that appear as version components (int() raises on
anything else; that case is the none). -/
def parseNatChars (l : List Char) : Option ℕ :=
  if l ≠ [] ∧ l.all Char.isDigit then
    some (l.foldl (fun acc c => acc * 10 + (c.toNat - 48)) 0)
  else none

/-- Major component of a version string: int(version.split(".")[0]), the
prefix of the version before its first dot.  A malformed version makes
int() raise inside parse_file's try block; the claims only concern
well-formed versions, modelled here with 0 as the out-of-range default. -/
def majorVersion (version : String) : ℤ :=
  (((parseNatChars (version.toList.takeWhile (fun c => c != '.'))).getD 0 : ℕ) : ℤ)

/-- Model of meta_include (functions.py lines 200-214). -/
def metaInclude (e : Entry) (version : String) : Bool :=
  if e.metaPresent = false then true
  else
    let removed : Bool :=
      match e.removedIn with
      | some n => decide (n < majorVersion version)
      | none => false
    let unused : Bool :=
      decide ("UnusedResources".toList ∈ splitCommaChars (optStr e.toolsIgnore).toList)
    !(unused || removed)

/-- Composite identifier ".".join(section.id + entry.id). -/
def entryId (secId : List String) (e : Entry) : String :=
  String.intercalate "." (secId ++ e.id)

/-- Lines 216-219 of functions.py: create the file and locale slots if
missing, leaving existing identifier lists untouched. -/
def initEntry (t : StringTable) (k l : String) : StringTable :=
  let t1 := if (alGet t k).isSome then t else alSet t k []
  if (alGet ((alGet t1 k).getD []) l).isSome then t1 else setLoc t1 k l []

/-- Body of the entry loop of parse_file for the source locale: the entry
id is stored when meta_include accepts it; attribute sub-identifiers are
stored unconditionally for the source locale (line 244-248). -/
def procEntrySource (relFile version : String) (secId : List String)
    (t : StringTable) (it : ResItem) : StringTable :=
  match it with
  | .comment => t
  | .entry e =>
    let eid := entryId secId e
    let t1 := if metaInclude e version then appendId t relFile "source" eid else t
    e.properties.foldl
      (fun t2 attr => appendId t2 relFile "source" (eid ++ "." ++ attr)) t1

/-- Body of the entry loop of parse_file for a non-source locale: ids and
attribute sub-ids are stored only when already present in the live
"source" list of the same file-key (lines 232-248). -/
def procEntryLocale (relFile locale : String) (secId : List String)
    (t : StringTable) (it : ResItem) : StringTable :=
  match it with
  | .comment => t
  | .entry e =>
    let eid := entryId secId e
    let t1 :=
      if eid ∈ getIds t relFile "source" then appendId t relFile locale eid
      else t
    e.properties.foldl
      (fun t2 attr =>
        if eid ++ "." ++ attr ∈ getIds t2 relFile "source" then
          appendId t2 relFile locale (eid ++ "." ++ attr)
        else t2) t1

/-- Model of functions.parse_file.  For a non-source locale whose file-key
has no "source" entry, Python raises KeyError on the first Entry before
storing anything and the except handler swallows it, so the table is left
exactly as initialised; that net effect is the final else branch. -/
def parseFile (pr : ParseResult) (relFile locale : String) (t : StringTable)
    (version : String) : StringTable :=
  let t0 := initEntry t relFile locale
  match pr with
  | .unsupported => t0
  | .failed => t0
  | .ok res =>
    if locale = "source" then
      res.sections.foldl
        (fun t1 sec => sec.entries.foldl (procEntrySource relFile version sec.id) t1) t0
    else if (alGet ((alGet t0 relFile).getD []) "source").isSome then
      res.sections.foldl
        (fun t1 sec => sec.entries.foldl (procEntryLocale relFile locale sec.id) t1) t0
    else t0

theorem alGet_setLoc_self (t : StringTable) (k l : String) (v : List String) :
    alGet (setLoc t k l v) k = some (alSet ((alGet t k).getD []) l v) := by
  unfold setLoc
  exact alGet_alSet_self t k _

theorem alGet_setLoc_ne (t : StringTable) (k l : String) (v : List String)
    (k' : String) (h : k' ≠ k) : alGet (setLoc t k l v) k' = alGet t k' := by
  unfold setLoc
  exact alGet_alSet_ne t k k' _ h

theorem getIds_setLoc_self (t : StringTable) (k l : String) (v : List String) :
    getIds (setLoc t k l v) k l = v := by
  unfold getIds
  rw [alGet_setLoc_self, Option.getD_some, alGet_alSet_self, Option.getD_some]

theorem getIds_setLoc_ne_key (t : StringTable) (k l : String) (v : List String)
    (k' l' : String) (h : k' ≠ k) :
    getIds (setLoc t k l v) k' l' = getIds t k' l' := by
  unfold getIds
  rw [alGet_setLoc_ne t k l v k' h]

theorem getIds_setLoc_ne_loc (t : StringTable) (k l : String) (v : List String)
    (l' : String) (h : l' ≠ l) :
    getIds (setLoc t k l v) k l' = getIds t k l' := by
  unfold getIds
  rw [alGet_setLoc_self, Option.getD_some, alGet_alSet_ne _ l l' v h]

theorem getIds_appendId_self (t : StringTable) (k l : String) (id : String) :
    getIds (appendId t k l id) k l = getIds t k l ++ [id] := by
  unfold appendId
  exact getIds_setLoc_self t k l _

theorem getIds_appendId_ne_key (t : StringTable) (k l id : String)
    (k' l' : String) (h : k' ≠ k) :
    getIds (appendId t k l id) k' l' = getIds t k' l' := by
  unfold appendId
  exact getIds_setLoc_ne_key t k l _ k' l' h

theorem getIds_appendId_ne_loc (t : StringTable) (k l id : String)
    (l' : String) (h : l' ≠ l) :
    getIds (appendId t k l id) k l' = getIds t k l' := by
  unfold appendId
  exact getIds_setLoc_ne_loc t k l _ l' h

/-- Structural invariant of a StringTable: every file-key present in the
table has a "source" entry. -/
def SrcInv (t : StringTable) : Prop :=
  ∀ k m, alGet t k = some m → (alGet m "source").isSome

/-- Reference-membership invariant of a StringTable: every identifier
stored for a non-source locale is a member of the same file-key's
"source" identifier list. -/
def MemInv (t : StringTable) : Prop :=
  ∀ k l, l ≠ "source" → ∀ id ∈ getIds t k l, id ∈ getIds t k "source"

theorem SrcInv_setLoc (t : StringTable) (k l : String) (v : List String)
    (h : SrcInv t) (hk : (alGet t k).isSome) : SrcInv (setLoc t k l v) := by
  intro k' m' hm'
  by_cases hkk : k' = k
  · subst hkk
    rw [alGet_setLoc_self] at hm'
    cases hm'
    by_cases hl : l = "source"
    · subst hl
      rw [alGet_alSet_self]
      rfl
    · rw [alGet_alSet_ne _ l "source" v (fun e => hl (Eq.symm e))]
      obtain ⟨m0, hm0⟩ := Option.isSome_iff_exists.mp hk
      rw [hm0, Option.getD_some]
      exact h k' m0 hm0
  · rw [alGet_setLoc_ne t k l v k' hkk] at hm'
    exact h k' m' hm'

theorem MemInv_setLoc (t : StringTable) (k l : String) (v : List String)
    (h : MemInv t) (hl : l ≠ "source")
    (hv : ∀ id ∈ v, id ∈ getIds t k "source") : MemInv (setLoc t k l v) := by
  intro k' l' hl' id hid
  by_cases hkk : k' = k
  · subst hkk
    rw [getIds_setLoc_ne_loc t k' l v "source" (fun e => hl (Eq.symm e))]
    by_cases hll : l' = l
    · subst hll
      rw [getIds_setLoc_self] at hid
      exact hv id hid
    · rw [getIds_setLoc_ne_loc t k' l v l' hll] at hid
      exact h k' l' hl' id hid
  · rw [getIds_setLoc_ne_key t k l v k' l' hkk] at hid
    rw [getIds_setLoc_ne_key t k l v k' "source" hkk]
    exact h k' l' hl' id hid

theorem MemInv_setLoc_source_of_empty (t : StringTable) (k : String)
    (v : List String) (h : MemInv t) (hs : getIds t k "source" = []) :
    MemInv (setLoc t k "source" v) := by
  intro k' l' hl' id hid
  by_cases hkk : k' = k
  · subst hkk
    rw [getIds_setLoc_ne_loc t k' "source" v l' hl'] at hid
    have := h k' l' hl' id hid
    rw [hs] at this
    simp at this
  · rw [getIds_setLoc_ne_key t k "source" v k' l' hkk] at hid
    rw [getIds_setLoc_ne_key t k "source" v k' "source" hkk]
    exact h k' l' hl' id hid

theorem MemInv_appendId_source (t : StringTable) (k id : String)
    (h : MemInv t) : MemInv (appendId t k "source" id) := by
  intro k' l' hl' x hx
  by_cases hkk : k' = k
  · subst hkk
    rw [getIds_appendId_ne_loc t k' "source" id l' hl'] at hx
    rw [getIds_appendId_self]
    exact List.mem_append_left _ (h k' l' hl' x hx)
  · rw [getIds_appendId_ne_key t k "source" id k' l' hkk] at hx
    rw [getIds_appendId_ne_key t k "source" id k' "source" hkk]
    exact h k' l' hl' x hx

theorem MemInv_appendId_locale (t : StringTable) (k l id : String)
    (h : MemInv t) (hl : l ≠ "source") (hid : id ∈ getIds t k "source") :
    MemInv (appendId t k l id) := by
  unfold appendId
  refine MemInv_setLoc t k l _ h hl ?_
  intro x hx
  rcases List.mem_append.mp hx with h1 | h1
  · exact h k l hl x h1
  · rw [List.mem_singleton.mp h1]
    exact hid

theorem SrcInv_appendId (t : StringTable) (k l id : String)
    (h : SrcInv t) (hk : (alGet t k).isSome) : SrcInv (appendId t k l id) := by
  unfold appendId
  exact SrcInv_setLoc t k l _ h hk

theorem SrcInv_setSource (t : StringTable) (k : String) (s : List String)
    (h : SrcInv t) : SrcInv (alSet t k [("source", s)]) := by
  intro k' m' hm'
  by_cases hkk : k' = k
  · subst hkk
    rw [alGet_alSet_self] at hm'
    cases hm'
    rfl
  · rw [alGet_alSet_ne t k k' _ hkk] at hm'
    exact h k' m' hm'

theorem MemInv_setSource (t : StringTable) (k : String) (s : List String)
    (h : MemInv t) : MemInv (alSet t k [("source", s)]) := by
  intro k' l' hl' id hid
  by_cases hkk : k' = k
  · subst hkk
    unfold getIds at hid
    rw [alGet_alSet_self, Option.getD_some] at hid
    simp only [alGet, if_neg (fun e => hl' (Eq.symm e))] at hid
    simp [alGet] at hid
  · unfold getIds at hid ⊢
    rw [alGet_alSet_ne t k k' _ hkk] at hid ⊢
    exact h k' l' hl' id hid

theorem MemInv_setEmpty (t : StringTable) (k : String)
    (h : MemInv t) : MemInv (alSet t k []) := by
  intro k' l' hl' id hid
  by_cases hkk : k' = k
  · subst hkk
    unfold getIds at hid
    rw [alGet_alSet_self, Option.getD_some] at hid
    simp [alGet] at hid
  · unfold getIds at hid ⊢
    rw [alGet_alSet_ne t k k' _ hkk] at hid ⊢
    exact h k' l' hl' id hid

theorem MemInv_initEntry (t : StringTable) (k l : String)
    (h : MemInv t) : MemInv (initEntry t k l) := by
  unfold initEntry
  by_cases hk : (alGet t k).isSome
  · rw [if_pos hk]
    by_cases hl : (alGet ((alGet t k).getD []) l).isSome
    · rw [if_pos hl]
      exact h
    · rw [if_neg hl]
      by_cases hls : l = "source"
      · subst hls
        refine MemInv_setLoc_source_of_empty t k [] h ?_
        unfold getIds
        rw [Option.not_isSome_iff_eq_none.mp hl]
        rfl
      · exact MemInv_setLoc t k l [] h hls (by intro x hx; simp at hx)
  · rw [if_neg hk]
    have h1 : MemInv (alSet t k []) := MemInv_setEmpty t k h
    by_cases hl : (alGet ((alGet (alSet t k []) k).getD []) l).isSome
    · rw [if_pos hl]
      exact h1
    · rw [if_neg hl]
      by_cases hls : l = "source"
      · subst hls
        refine MemInv_setLoc_source_of_empty _ k [] h1 ?_
        unfold getIds
        rw [alGet_alSet_self, Option.getD_some]
        rfl
      · exact MemInv_setLoc _ k l [] h1 hls (by intro x hx; simp at hx)

theorem MemInv_procEntrySource (relFile version : String) (secId : List String)
    (t : StringTable) (it : ResItem) (h : MemInv t) :
    MemInv (procEntrySource relFile version secId t it) := by
  cases it with
  | comment => exact h
  | entry e =>
    simp only [procEntrySource]
    refine foldl_preserve MemInv _ _ _ ?_ ?_
    · intro t2 attr _ ht2
      exact MemInv_appendId_source _ _ _ ht2
    · by_cases hm : metaInclude e version = true
      · rw [if_pos hm]
        exact MemInv_appendId_source _ _ _ h
      · rw [if_neg hm]
        exact h

theorem MemInv_procEntryLocale (relFile locale : String) (secId : List String)
    (t : StringTable) (it : ResItem) (h : MemInv t) (hl : locale ≠ "source") :
    MemInv (procEntryLocale relFile locale secId t it) := by
  cases it with
  | comment => exact h
  | entry e =>
    simp only [procEntryLocale]
    refine foldl_preserve MemInv _ _ _ ?_ ?_
    · intro t2 attr _ ht2
      by_cases hc : entryId secId e ++ "." ++ attr ∈ getIds t2 relFile "source"
      · rw [if_pos hc]
        exact MemInv_appendId_locale _ _ _ _ ht2 hl hc
      · rw [if_neg hc]
        exact ht2
    · by_cases hc : entryId secId e ∈ getIds t relFile "source"
      · rw [if_pos hc]
        exact MemInv_appendId_locale _ _ _ _ h hl hc
      · rw [if_neg hc]
        exact h

theorem MemInv_parseFile (pr : ParseResult) (relFile locale : String)
    (t : StringTable) (version : String) (h : MemInv t) :
    MemInv (parseFile pr relFile locale t version) := by
  cases pr with
  | unsupported =>
    simp only [parseFile]
    exact MemInv_initEntry t relFile locale h
  | failed =>
    simp only [parseFile]
    exact MemInv_initEntry t relFile locale h
  | ok res =>
    simp only [parseFile]
    by_cases hloc : locale = "source"
    · rw [if_pos hloc]
      refine foldl_preserve MemInv _ _ _ ?_ (MemInv_initEntry t relFile locale h)
      intro t1 sec _ ht1
      refine foldl_preserve MemInv _ _ _ ?_ ht1
      intro t2 it _ ht2
      exact MemInv_procEntrySource relFile version sec.id t2 it ht2
    · rw [if_neg hloc]
      by_cases hsrc :
          (alGet ((alGet (initEntry t relFile locale) relFile).getD []) "source").isSome = true
      · rw [if_pos hsrc]
        refine foldl_preserve MemInv _ _ _ ?_ (MemInv_initEntry t relFile locale h)
        intro t1 sec _ ht1
        refine foldl_preserve MemInv _ _ _ ?_ ht1
        intro t2 it _ ht2
        exact MemInv_procEntryLocale relFile locale sec.id t2 it ht2 hloc
      · rw [if_neg hsrc]
        exact MemInv_initEntry t relFile locale h

/-- Model of one string element of a Fenix strings.xml file: its android
name attribute and the optional tools ignore attribute. -/
structure AndroidString where
  name : String
  toolsIgnore : Option String

/-- Outcome of fenix_stats.parseXMLFile's ET parsing: either the full
string list, or the strings iterated before an exception (a ParseError
yields the empty list); in both cases the accumulated ids are returned. -/
inductive XmlParse
  | failedAfter (strings : List AndroidString)
  | ok (strings : List AndroidString)

/-- Strings accumulated by the parseXMLFile loop. -/
def xmlStrings : XmlParse → List AndroidString
  | .failedAfter s => s
  | .ok s => s

/-- Model of fenix_stats.parseXMLFile (lines 72-97): for the source locale
strings carrying tools ignore UnusedResources are skipped. -/
def parseXMLFile (p : XmlParse) (source : Bool) : List String :=
  if source then
    ((xmlStrings p).filter
      (fun s =>
        !(decide ("UnusedResources".toList ∈
          splitCommaChars (s.toolsIgnore.getD "").toList)))).map
      (fun s => s.name)
  else (xmlStrings p).map (fun s => s.name)

/-- One TOML project configuration consumed by fenix_stats.extractStringList:
product name, reference files (relative path and parsed source XML), the
configuration's locale list, and for each locale the list of its files
that exist on disk (a pair absent from localeFiles is a missing file). -/
structure FenixConfig where
  product : String
  files : List (String × XmlParse)
  locales : List String
  localeFiles : List (String × List (String × XmlParse))

/-- File-key built at lines 121 and 135: product-prefixed relative path. -/
def fenixKey (product rel : String) : String := product ++ ":" ++ rel

/-- Lines 131-146 of fenix_stats.py for one locale file: skipped when the
key is not in the table (extra file), otherwise the locale's ids filtered
to those present in the file-key's source list. -/
def fenixLocaleStep (product locale : String) (t : StringTable)
    (f : String × XmlParse) : StringTable :=
  if (alGet t (fenixKey product f.1)).isSome then
    setLoc t (fenixKey product f.1) locale
      ((parseXMLFile f.2 false).filter
        (fun id => decide (id ∈ getIds t (fenixKey product f.1) "source")))
  else t

/-- Lines 119-124: store the source entry of every reference file. -/
def fenixSourcePass (product : String) (files : List (String × XmlParse))
    (t : StringTable) : StringTable :=
  files.foldl
    (fun t2 f => alSet t2 (fenixKey product f.1) [("source", parseXMLFile f.2 true)]) t

/-- Lines 129-146: process every locale of the configuration. -/
def fenixLocalePass (cfg : FenixConfig) (t : StringTable) : StringTable :=
  cfg.locales.foldl
    (fun t2 locale =>
      ((alGet cfg.localeFiles locale).getD []).foldl
        (fenixLocaleStep cfg.product locale) t2) t

/-- One iteration of the outer TOML loop of extractStringList: the state
carries the table, the all_locales superset (line 128, computed but never
returned) and the current value of the locales variable. -/
def fenixConfigStep (acc : StringTable × List String × List String)
    (cfg : FenixConfig) : StringTable × List String × List String :=
  (fenixLocalePass cfg (fenixSourcePass cfg.product cfg.files acc.1),
    (cfg.locales ++ acc.2.1).dedup, cfg.locales)

/-- Model of fenix_stats.extractStringList (lines 100-148): the function
returns the table together with the locales variable, which after the
loop holds the last configuration's locale list (line 148), not the
all_locales superset. -/
def extractStringList (configs : List FenixConfig) : StringTable × List String :=
  ((configs.foldl fenixConfigStep ([], [], [])).1,
    (configs.foldl fenixConfigStep ([], [], [])).2.2)

/-- Union of all configurations' locale lists, the value accumulated into
all_locales by line 128 of fenix_stats.py. -/
def allLocalesUnion (configs : List FenixConfig) : List String :=
  (configs.foldl fenixConfigStep ([], [], [])).2.1

/-- One reference file seen by firefox_stats.extract_string_list: its
table key (path relative to basedir), whether its basename starts with a
dot, the identifiers yielded by the parser (entities and ftl attributes,
Junk skipped) before the end of the file or an error, and whether parsing
ended in an exception. -/
structure FxRefFile where
  name : String
  hidden : Bool
  ids : List String
  err : Bool

/-- Lines 56-83 of firefox_stats.py for one reference file: hidden files
are skipped; on success the source entry holds the parsed ids; on a parse
error the file's entry is removed from the table (string_list.pop at line
82), discarding anything accumulated for it. -/
def fxSourceStep (t : StringTable) (f : FxRefFile) : StringTable :=
  if f.hidden then t
  else if f.err then alErase t f.name
  else alSet t f.name [("source", f.ids)]

/-- The reference-file loop of firefox_stats.extract_string_list. -/
def fxSourcePass (files : List FxRefFile) : StringTable :=
  files.foldl fxSourceStep []

/-- Outcome for one (locale, file) pair in the firefox locale loop:
the file is missing on disk, or the parser yielded ids (all of them, or
those seen before an exception — both leave the accumulated list). -/
inductive FxParse
  | missing
  | parsed (ids : List String)

/-- Lines 86-119 of firefox_stats.py for one file of one locale: the
locale entry is reset to [], then each parsed id is appended only if it
is present in the file's source list. -/
def fxLocaleStep (locale : String) (out : List ((String × String) × FxParse))
    (t : StringTable) (name : String) : StringTable :=
  match (alGet out (locale, name)).getD .missing with
  | .missing => setLoc t name locale []
  | .parsed ids =>
    ids.foldl
      (fun t2 id =>
        if id ∈ getIds t2 name "source" then appendId t2 name locale id else t2)
      (setLoc t name locale [])

/-- Lines 85-119: the locale loop iterates the keys of the table built by
the source pass (those keys are not changed by the locale loop). -/
def fxLocalePass (t0 : StringTable) (locales : List String)
    (out : List ((String × String) × FxParse)) : StringTable :=
  locales.foldl
    (fun t locale => (t0.map Prod.fst).foldl (fxLocaleStep locale out) t) t0

/-- Model of firefox_stats.extract_string_list (lines 32-121), with the
parsed file contents supplied as data: returns the table and the locale
list read from shipped-locales. -/
def extract_string_list (files : List FxRefFile) (locales : List String)
    (out : List ((String × String) × FxParse)) : StringTable × List String :=
  (fxLocalePass (fxSourcePass files) locales out, locales)

theorem SrcInv_nil : SrcInv [] := by
  intro k m h
  simp [alGet] at h

theorem MemInv_nil : MemInv [] := by
  intro k l hl id hid
  simp [getIds, alGet] at hid

theorem SrcInv_alErase (t : StringTable) (k : String) (h : SrcInv t) :
    SrcInv (alErase t k) := by
  intro k' m hm
  by_cases hkk : k' = k
  · subst hkk
    rw [alGet_alErase_self] at hm
    cases hm
  · rw [alGet_alErase_ne t k k' hkk] at hm
    exact h k' m hm

theorem MemInv_alErase (t : StringTable) (k : String) (h : MemInv t) :
    MemInv (alErase t k) := by
  intro k' l hl id hid
  unfold getIds at hid ⊢
  by_cases hkk : k' = k
  · subst hkk
    rw [alGet_alErase_self] at hid
    simp [alGet] at hid
  · rw [alGet_alErase_ne t k k' hkk] at hid ⊢
    exact h k' l hl id hid

theorem keys_setLoc (t : StringTable) (k l : String) (v : List String)
    (hk : (alGet t k).isSome) :
    (setLoc t k l v).map Prod.fst = t.map Prod.fst := by
  unfold setLoc
  exact keys_alSet_of_mem t k _ hk

theorem keys_appendId (t : StringTable) (k l id : String)
    (hk : (alGet t k).isSome) :
    (appendId t k l id).map Prod.fst = t.map Prod.fst := by
  unfold appendId
  exact keys_setLoc t k l _ hk

theorem fenixSourcePass_inv (product : String) (files : List (String × XmlParse))
    (t : StringTable) (h : SrcInv t ∧ MemInv t) :
    SrcInv (fenixSourcePass product files t) ∧ MemInv (fenixSourcePass product files t) := by
  unfold fenixSourcePass
  refine foldl_preserve (fun t2 => SrcInv t2 ∧ MemInv t2) _ _ _ ?_ h
  intro t2 f _ h2
  exact ⟨SrcInv_setSource _ _ _ h2.1, MemInv_setSource _ _ _ h2.2⟩

theorem fenixLocaleStep_inv (product locale : String) (t : StringTable)
    (f : String × XmlParse) (hl : locale ≠ "source") (h : SrcInv t ∧ MemInv t) :
    SrcInv (fenixLocaleStep product locale t f) ∧
      MemInv (fenixLocaleStep product locale t f) := by
  unfold fenixLocaleStep
  by_cases hk : (alGet t (fenixKey product f.1)).isSome
  · rw [if_pos hk]
    refine ⟨SrcInv_setLoc _ _ _ _ h.1 hk, MemInv_setLoc _ _ _ _ h.2 hl ?_⟩
    intro id hid
    exact of_decide_eq_true (List.mem_filter.mp hid).2
  · rw [if_neg hk]
    exact h

theorem fenixLocalePass_inv (cfg : FenixConfig) (t : StringTable)
    (hsrc : "source" ∉ cfg.locales) (h : SrcInv t ∧ MemInv t) :
    SrcInv (fenixLocalePass cfg t) ∧ MemInv (fenixLocalePass cfg t) := by
  unfold fenixLocalePass
  refine foldl_preserve (fun t2 => SrcInv t2 ∧ MemInv t2) _ _ _ ?_ h
  intro t2 locale hmem h2
  have hl : locale ≠ "source" := fun e => hsrc (e ▸ hmem)
  refine foldl_preserve (fun t3 => SrcInv t3 ∧ MemInv t3) _ _ _ ?_ h2
  intro t3 f _ h3
  exact fenixLocaleStep_inv cfg.product locale t3 f hl h3

theorem extractStringList_inv (configs : List FenixConfig)
    (hsrc : ∀ cfg ∈ configs, "source" ∉ cfg.locales) :
    SrcInv (extractStringList configs).1 ∧ MemInv (extractStringList configs).1 := by
  unfold extractStringList
  refine foldl_preserve
    (fun acc : StringTable × List String × List String => SrcInv acc.1 ∧ MemInv acc.1)
    fenixConfigStep configs ([], [], []) ?_ ⟨SrcInv_nil, MemInv_nil⟩
  intro acc cfg hmem hacc
  exact fenixLocalePass_inv cfg _ (hsrc cfg hmem)
    (fenixSourcePass_inv cfg.product cfg.files acc.1 hacc)

theorem fxSourcePass_inv (files : List FxRefFile) :
    SrcInv (fxSourcePass files) ∧ MemInv (fxSourcePass files) := by
  unfold fxSourcePass
  refine foldl_preserve (fun t => SrcInv t ∧ MemInv t) _ _ _ ?_ ⟨SrcInv_nil, MemInv_nil⟩
  intro t f _ h
  unfold fxSourceStep
  by_cases h1 : f.hidden = true
  · rw [if_pos h1]
    exact h
  · rw [if_neg h1]
    by_cases h2 : f.err = true
    · rw [if_pos h2]
      exact ⟨SrcInv_alErase t f.name h.1, MemInv_alErase t f.name h.2⟩
    · rw [if_neg h2]
      exact ⟨SrcInv_setSource _ _ _ h.1, MemInv_setSource _ _ _ h.2⟩

theorem fxLocaleStep_inv (locale : String)
    (out : List ((String × String) × FxParse)) (t : StringTable) (name : String)
    (hl : locale ≠ "source") (hmem : name ∈ t.map Prod.fst)
    (h : SrcInv t ∧ MemInv t) :
    (fxLocaleStep locale out t name).map Prod.fst = t.map Prod.fst ∧
      SrcInv (fxLocaleStep locale out t name) ∧
      MemInv (fxLocaleStep locale out t name) := by
  obtain ⟨hs, hm⟩ := h
  have hk : (alGet t name).isSome := alGet_isSome_of_mem_keys t name hmem
  have ht1keys := keys_setLoc t name locale [] hk
  have ht1 : SrcInv (setLoc t name locale []) ∧ MemInv (setLoc t name locale []) :=
    ⟨SrcInv_setLoc _ _ _ _ hs hk,
      MemInv_setLoc _ _ _ _ hm hl (by intro x hx; simp at hx)⟩
  unfold fxLocaleStep
  cases hout : (alGet out (locale, name)).getD .missing with
  | missing => exact ⟨ht1keys, ht1⟩
  | parsed ids =>
    refine foldl_preserve
      (fun t2 => t2.map Prod.fst = t.map Prod.fst ∧ SrcInv t2 ∧ MemInv t2) _ _ _ ?_
      ⟨ht1keys, ht1⟩
    intro t2 id _ h2
    obtain ⟨h2keys, h2s, h2m⟩ := h2
    by_cases hc : id ∈ getIds t2 name "source"
    · rw [if_pos hc]
      have hmem2 : name ∈ t2.map Prod.fst := by
        rw [h2keys]
        exact hmem
      have hk2 : (alGet t2 name).isSome := alGet_isSome_of_mem_keys t2 name hmem2
      refine ⟨?_, SrcInv_appendId t2 name locale id h2s hk2,
        MemInv_appendId_locale t2 name locale id h2m hl hc⟩
      rw [keys_appendId t2 name locale id hk2, h2keys]
    · rw [if_neg hc]
      exact ⟨h2keys, h2s, h2m⟩

theorem fxLocalePass_inv (t0 : StringTable) (locales : List String)
    (out : List ((String × String) × FxParse)) (hsrc : "source" ∉ locales)
    (h : SrcInv t0 ∧ MemInv t0) :
    SrcInv (fxLocalePass t0 locales out) ∧ MemInv (fxLocalePass t0 locales out) := by
  unfold fxLocalePass
  refine And.intro
    (foldl_preserve
      (fun t => t.map Prod.fst = t0.map Prod.fst ∧ SrcInv t ∧ MemInv t) _ locales t0
      ?_ ⟨rfl, h.1, h.2⟩).2.1
    (foldl_preserve
      (fun t => t.map Prod.fst = t0.map Prod.fst ∧ SrcInv t ∧ MemInv t) _ locales t0
      ?_ ⟨rfl, h.1, h.2⟩).2.2 <;>
  · intro t locale hmem ht
    refine foldl_preserve
      (fun t2 => t2.map Prod.fst = t0.map Prod.fst ∧ SrcInv t2 ∧ MemInv t2) _ _ _ ?_ ht
    intro t2 name hname h2
    have hl : locale ≠ "source" := fun e => hsrc (e ▸ hmem)
    have hmem2 : name ∈ t2.map Prod.fst := by
      rw [h2.1]
      exact hname
    have hstep := fxLocaleStep_inv locale out t2 name hl hmem2 ⟨h2.2.1, h2.2.2⟩
    exact ⟨by rw [hstep.1, h2.1], hstep.2.1, hstep.2.2⟩

theorem extract_string_list_inv (files : List FxRefFile) (locales : List String)
    (out : List ((String × String) × FxParse)) (hsrc : "source" ∉ locales) :
    SrcInv (extract_string_list files locales out).1 ∧
      MemInv (extract_string_list files locales out).1 := by
  unfold extract_string_list
  exact fxLocalePass_inv (fxSourcePass files) locales out hsrc (fxSourcePass_inv files)

/-- Characters matched by the regex character class of underscore-and-digits
used in get_version_from_filename. -/
def isVerChar (c : Char) : Bool := c.isDigit || c = '_'

/-- Suffix of the input after its leftmost underscore, where re.search
of an underscore-anchored pattern starts matching; none when the input
has no underscore (the regex does not match). -/
def afterUnderscore : List Char → Option (List Char)
  | [] => none
  | c :: rest => if c = '_' then some rest else afterUnderscore rest

/-- The version.replace step of get_version_from_filename, one char. -/
def undToDot (c : Char) : Char := if c = '_' then '.' else c

/-- Model of functions.get_version_from_filename (lines 157-173) on the
character list of the filename: re.search of an underscore followed by
the greedy run of digits-or-underscores gives the captured group; the
assert on a failed match is the none case; the major version is
version.split(".")[0], the prefix of version before its first dot. -/
def get_version_from_filename (filename : List Char) :
    Option (List Char × List Char) :=
  match afterUnderscore filename with
  | none => none
  | some rest =>
    let version := (rest.takeWhile isVerChar).map undToDot
    some (version, version.takeWhile (fun c => c != '.'))

/-- Join char-list components with a separator char, the shape of a
version string with its underscore (or dot) separators. -/
def joinSep (sep : Char) : List (List Char) → List Char
  | [] => []
  | [c] => c
  | c :: c2 :: rest => c ++ sep :: joinSep sep (c2 :: rest)

theorem afterUnderscore_append (p x : List Char) (hp : '_' ∉ p) :
    afterUnderscore (p ++ '_' :: x) = some x := by
  induction p with
  | nil => simp [afterUnderscore]
  | cons c rest ih =>
    have hc : ¬(c = '_') := fun e => hp (by simp [e])
    simp only [List.cons_append, afterUnderscore, if_neg hc]
    exact ih (fun hm => hp (List.mem_cons_of_mem c hm))

theorem afterUnderscore_eq_none (l : List Char) :
    afterUnderscore l = none ↔ '_' ∉ l := by
  induction l with
  | nil => simp [afterUnderscore]
  | cons c rest ih =>
    by_cases hc : c = '_'
    · subst hc
      simp [afterUnderscore]
    · simp only [afterUnderscore, if_neg hc, ih, List.mem_cons]
      constructor
      · intro h hor
        rcases hor with h1 | h1
        · exact hc (Eq.symm h1)
        · exact h h1
      · intro h hm
        exact h (Or.inr hm)

theorem takeWhile_append_stop (p : Char → Bool) (xs : List Char) (y : Char)
    (ys : List Char) (hxs : ∀ c ∈ xs, p c = true) (hy : p y = false) :
    (xs ++ y :: ys).takeWhile p = xs := by
  induction xs with
  | nil =>
    simp only [List.nil_append, List.takeWhile_cons, hy]
    simp
  | cons c rest ih =>
    have hc := hxs c (List.mem_cons_self _ _)
    rw [List.cons_append, List.takeWhile_cons, if_pos hc,
      ih (fun d hd => hxs d (List.mem_cons_of_mem c hd))]

theorem takeWhile_all (p : Char → Bool) (xs : List Char)
    (hxs : ∀ c ∈ xs, p c = true) : xs.takeWhile p = xs := by
  induction xs with
  | nil => rfl
  | cons c rest ih =>
    rw [List.takeWhile_cons, if_pos (hxs c (List.mem_cons_self _ _)),
      ih (fun d hd => hxs d (List.mem_cons_of_mem c hd))]

theorem mem_joinSep (sep : Char) (comps : List (List Char)) (c : Char)
    (h : c ∈ joinSep sep comps) : c = sep ∨ ∃ comp ∈ comps, c ∈ comp := by
  induction comps with
  | nil => simp [joinSep] at h
  | cons c0 cs ih =>
    cases cs with
    | nil =>
      simp only [joinSep] at h
      exact Or.inr ⟨c0, List.mem_cons_self _ _, h⟩
    | cons c1 rest =>
      simp only [joinSep] at h
      rcases List.mem_append.mp h with h1 | h1
      · exact Or.inr ⟨c0, List.mem_cons_self _ _, h1⟩
      · rcases List.mem_cons.mp h1 with h2 | h2
        · exact Or.inl h2
        · rcases ih h2 with h3 | ⟨comp, hcomp, hcc⟩
          · exact Or.inl h3
          · exact Or.inr ⟨comp, List.mem_cons_of_mem c0 hcomp, hcc⟩

theorem map_undToDot_joinSep (comps : List (List Char))
    (h : ∀ comp ∈ comps, ∀ c ∈ comp, c.isDigit = true) :
    (joinSep '_' comps).map undToDot = joinSep '.' comps := by
  induction comps with
  | nil => rfl
  | cons c0 cs ih =>
    have hc0 : c0.map undToDot = c0 := by
      have : ∀ c ∈ c0, undToDot c = c := by
        intro c hc
        have hd := h c0 (List.mem_cons_self _ _) c hc
        unfold undToDot
        rw [if_neg]
        intro e
        rw [e] at hd
        simp [Char.isDigit] at hd
      calc c0.map undToDot = c0.map id := List.map_congr_left this
        _ = c0 := List.map_id c0
    cases cs with
    | nil =>
      simp only [joinSep]
      exact hc0
    | cons c1 rest =>
      simp only [joinSep, List.map_append, List.map_cons, hc0]
      rw [show undToDot '_' = '.' from rfl]
      have := ih (fun comp hcomp => h comp (List.mem_cons_of_mem c0 hcomp))
      simp only [joinSep] at this
      rw [this]

theorem takeWhile_ne_dot_joinSep (c0 : List Char) (cs : List (List Char))
    (h0 : ∀ c ∈ c0, c.isDigit = true) :
    (joinSep '.' (c0 :: cs)).takeWhile (fun c => c != '.') = c0 := by
  have hall : ∀ c ∈ c0, (fun c => c != '.') c = true := by
    intro c hc
    have hd := h0 c hc
    simp only [bne_iff_ne, ne_eq]
    intro e
    rw [e] at hd
    simp [Char.isDigit] at hd
  cases cs with
  | nil => exact takeWhile_all _ c0 hall
  | cons c1 rest =>
    simp only [joinSep]
    exact takeWhile_append_stop _ c0 '.' _ hall (by simp)

theorem get_version_from_filename_format (product c0 : List Char)
    (cs : List (List Char)) (hp : '_' ∉ product)
    (hall : ∀ comp ∈ c0 :: cs, ∀ c ∈ comp, c.isDigit = true) :
    get_version_from_filename
        (product ++ '_' :: (joinSep '_' (c0 :: cs) ++ '.' :: "json".toList)) =
      some (joinSep '.' (c0 :: cs), c0) := by
  unfold get_version_from_filename
  rw [afterUnderscore_append _ _ hp]
  have hver : ∀ c ∈ joinSep '_' (c0 :: cs), isVerChar c = true := by
    intro c hc
    rcases mem_joinSep '_' (c0 :: cs) c hc with h1 | ⟨comp, hcomp, hcc⟩
    · rw [h1]
      rfl
    · unfold isVerChar
      rw [hall comp hcomp c hcc]
      rfl
  have hdot : isVerChar '.' = false := by rfl
  simp only
  rw [takeWhile_append_stop isVerChar _ '.' _ hver hdot,
    map_undToDot_joinSep _ hall,
    takeWhile_ne_dot_joinSep c0 cs (hall c0 (List.mem_cons_self _ _))]

theorem get_version_from_filename_none_iff (f : List Char) :
    get_version_from_filename f = none ↔ '_' ∉ f := by
  unfold get_version_from_filename
  constructor
  · intro h
    cases hA : afterUnderscore f with
    | none => exact (afterUnderscore_eq_none f).mp hA
    | some rest =>
      rw [hA] at h
      simp at h
  · intro h
    rw [(afterUnderscore_eq_none f).mpr h]

theorem getIds_initEntry (t : StringTable) (k l k' l' : String) :
    getIds (initEntry t k l) k' l' = getIds t k' l' := by
  unfold initEntry
  by_cases hk : (alGet t k).isSome
  · rw [if_pos hk]
    by_cases hl : (alGet ((alGet t k).getD []) l).isSome
    · rw [if_pos hl]
    · rw [if_neg hl]
      by_cases hkk : k' = k
      · subst hkk
        by_cases hll : l' = l
        · subst hll
          rw [getIds_setLoc_self]
          unfold getIds
          rw [Option.not_isSome_iff_eq_none.mp hl]
          rfl
        · exact getIds_setLoc_ne_loc t k' l [] l' hll
      · exact getIds_setLoc_ne_key t k l [] k' l' hkk
  · rw [if_neg hk]
    have hnone := Option.not_isSome_iff_eq_none.mp hk
    by_cases hkk : k' = k
    · subst hkk
      have hbase : getIds t k' l' = [] := by
        unfold getIds
        rw [hnone]
        rfl
      rw [hbase]
      by_cases hl : (alGet ((alGet (alSet t k' []) k').getD []) l).isSome
      · rw [if_pos hl]
        unfold getIds
        rw [alGet_alSet_self, Option.getD_some]
        rfl
      · rw [if_neg hl]
        by_cases hll : l' = l
        · subst hll
          rw [getIds_setLoc_self]
        · rw [getIds_setLoc_ne_loc _ k' l [] l' hll]
          unfold getIds
          rw [alGet_alSet_self, Option.getD_some]
          rfl
    · by_cases hl : (alGet ((alGet (alSet t k []) k).getD []) l).isSome
      · rw [if_pos hl]
        unfold getIds
        rw [alGet_alSet_ne t k k' _ hkk]
      · rw [if_neg hl]
        rw [getIds_setLoc_ne_key _ k l [] k' l' hkk]
        unfold getIds
        rw [alGet_alSet_ne t k k' _ hkk]

/-- C1: for every StringTable and locale list, the completion computation
maps each locale other than "source" to the ratio of that locale's total
identifier count (missing entries counting as empty lists) to the source
total, rounded to 4 decimal places (defined whenever the source total is
nonzero); in particular on the table file1 with source a,b,c,d, it a,b,c
and fr a,b, with locales [it, fr], the result is it 0.75 and fr 0.5. -/
theorem claim1_completion_ratio :
    (∀ (t : StringTable) (locales : List String) (l : String),
      sourceStats t ≠ 0 → l ∈ locales → l ≠ "source" →
      ∃ res, store_completion t locales = .ok res ∧
        alGet res l = some (round4 ((localeStats t l : ℚ) / (sourceStats t : ℚ)))) ∧
    store_completion
      [("file1", [("source", ["a", "b", "c", "d"]), ("it", ["a", "b", "c"]),
        ("fr", ["a", "b"])])] ["it", "fr"] =
      .ok [("it", 3 / 4), ("fr", 1 / 2)] := by
  constructor
  · intro t locales l h hm hs
    obtain ⟨res, heq, hP⟩ := storeCompletionGo_ok t h locales []
    exact ⟨res, heq, (hP l).1 ⟨hm, hs⟩⟩
  · have h34 : round4 ((3 : ℚ) / 4) = 3 / 4 := by
      have h := round4_natCast_div 3 4 (by norm_num)
      norm_num [rheN] at h
      exact h
    have h24 : round4 ((2 : ℚ) / 4) = 1 / 2 := by
      have h := round4_natCast_div 2 4 (by norm_num)
      norm_num [rheN] at h
      rw [show (2 : ℚ) / 4 = 1 / 2 by norm_num]
      exact h
    simp +decide [store_completion, storeCompletionGo, sourceStats, localeStats,
      getIds, alGet, alSet, h34, h24]

theorem claim1_completion_ratio_witness :
    ∃ res,
      store_completion
        [("file1", [("source", ["a", "b", "c", "d"]), ("it", ["a", "b", "c"]),
          ("fr", ["a", "b"])])] ["it", "fr"] = .ok res ∧
      alGet res "it" =
        some (round4
          ((localeStats
              [("file1", [("source", ["a", "b", "c", "d"]), ("it", ["a", "b", "c"]),
                ("fr", ["a", "b"])])] "it" : ℚ) /
            (sourceStats
              [("file1", [("source", ["a", "b", "c", "d"]), ("it", ["a", "b", "c"]),
                ("fr", ["a", "b"])])] : ℚ))) :=
  claim1_completion_ratio.1
    [("file1", [("source", ["a", "b", "c", "d"]), ("it", ["a", "b", "c"]),
      ("fr", ["a", "b"])])]
    ["it", "fr"] "it" (by decide) (by decide) (by decide)

/-- C4 counterexample: a StringTable with an empty reference set is not
always fatal: with locale list ["source"] the division never runs, the
computation returns an empty completion mapping and the run exits 0. -/
theorem claim4_counterexample :
    sourceStats [("file1", [("source", [])])] = 0 ∧
    store_completion [("file1", [("source", [])])] ["source"] =
      .ok ([] : List (String × ℚ)) ∧
    runExitCode (store_completion [("file1", [("source", [])])] ["source"]) = 0 :=
  ⟨by decide, rfl, rfl⟩

/-- C4 amended: there is no explicit guard; when the reference total is
zero and the locale list contains at least one locale other than
"source", the first division raises ZeroDivisionError, which the run
loop of base_stats.StatsExtractor.run catches, exiting 1 (with no
non-source locale, the run succeeds with an empty result instead). -/
theorem claim4_zero_source_raises (t : StringTable) (locales : List String)
    (h0 : sourceStats t = 0) (hl : ∃ l ∈ locales, l ≠ "source") :
    store_completion t locales = .error "ZeroDivisionError" ∧
    runExitCode (store_completion t locales) = 1 := by
  have he : storeCompletionGo t [] locales = .error "ZeroDivisionError" :=
    storeCompletionGo_zero t h0 locales [] hl
  unfold store_completion
  rw [he]
  exact ⟨rfl, rfl⟩

theorem claim4_zero_source_raises_witness :
    store_completion [("file1", [("source", [])])] ["it"] =
      .error "ZeroDivisionError" ∧
    runExitCode (store_completion [("file1", [("source", [])])] ["it"]) = 1 :=
  claim4_zero_source_raises [("file1", [("source", [])])] ["it"] (by decide)
    (by decide)

/-- C5 counterexample: a locale list with duplicate identifiers can push a
completion value above 1: with source [a] and it [a, a] the value stored
for it is 2. -/
theorem claim5_counterexample :
    store_completion [("f", [("source", ["a"]), ("it", ["a", "a"])])] ["it"] =
      .ok [("it", 2)] ∧ (1 : ℚ) < 2 := by
  constructor
  · have h2 : round4 (2 : ℚ) = 2 := by
      have h := round4_natCast_div 2 1 (by norm_num)
      norm_num [rheN] at h
      exact h
    simp +decide [store_completion, storeCompletionGo, sourceStats, localeStats,
      getIds, alGet, alSet, h2]
  · norm_num

/-- C5 amended: every value of the completion result is nonnegative, and
is at most 1 whenever the locale's total identifier count does not exceed
the source total (duplicate identifiers in a locale list can break that
bound, as the counterexample shows). -/
theorem claim5_ratio_bounds (t : StringTable) (locales : List String)
    (res : List (String × ℚ)) (l : String) (q : ℚ)
    (hok : store_completion t locales = .ok res) (hmem : (l, q) ∈ res) :
    0 ≤ q ∧ (localeStats t l ≤ sourceStats t → sourceStats t ≠ 0 → q ≤ 1) := by
  have hok2 : storeCompletionGo t [] locales = .ok res := hok
  have hval :=
    storeCompletionGo_vals t locales [] res (by intro p hp; simp at hp) hok2
      (l, q) hmem
  constructor
  · rw [show q = completionValue t l from hval]
    exact completionValue_nonneg t l
  · intro hle hne
    rw [show q = completionValue t l from hval]
    exact completionValue_le_one t l hle hne

theorem claim5_ratio_bounds_witness :
    0 ≤ round4
        ((localeStats [("f", [("source", ["a"]), ("it", ["a"])])] "it" : ℚ) /
          (sourceStats [("f", [("source", ["a"]), ("it", ["a"])])] : ℚ)) ∧
      (localeStats [("f", [("source", ["a"]), ("it", ["a"])])] "it" ≤
          sourceStats [("f", [("source", ["a"]), ("it", ["a"])])] →
        sourceStats [("f", [("source", ["a"]), ("it", ["a"])])] ≠ 0 →
        round4
            ((localeStats [("f", [("source", ["a"]), ("it", ["a"])])] "it" : ℚ) /
              (sourceStats [("f", [("source", ["a"]), ("it", ["a"])])] : ℚ)) ≤ 1) :=
  claim5_ratio_bounds [("f", [("source", ["a"]), ("it", ["a"])])] ["it"]
    [("it",
      round4
        ((localeStats [("f", [("source", ["a"]), ("it", ["a"])])] "it" : ℚ) /
          (sourceStats [("f", [("source", ["a"]), ("it", ["a"])])] : ℚ)))]
    "it"
    (round4
      ((localeStats [("f", [("source", ["a"]), ("it", ["a"])])] "it" : ℚ) /
        (sourceStats [("f", [("source", ["a"]), ("it", ["a"])])] : ℚ)))
    rfl (List.mem_cons_self _ _)

/-- C6: the completion result never contains the key "source", whatever
the StringTable and locale list (including "source" in the list). -/
theorem claim6_no_source_key (t : StringTable) (locales : List String)
    (res : List (String × ℚ)) (hok : store_completion t locales = .ok res) :
    "source" ∉ res.map Prod.fst := by
  intro hmem
  rcases List.mem_map.mp hmem with ⟨p, hp, hfst⟩
  exact storeCompletionGo_keys t locales [] res (by intro p hp; simp at hp) hok
    p hp hfst

theorem claim6_no_source_key_witness :
    "source" ∉ (([] : List (String × ℚ)).map Prod.fst) :=
  claim6_no_source_key [("f", [("source", ["a"])])] ["source"] [] rfl

/-- C2: for the source locale, meta_include excludes an entry exactly when
its removedIn marker is strictly below the major component of the cutoff
version, or its ignore marker contains the UnusedResources sentinel and
the removal condition does not apply; an entry whose meta is absent is
always included; an entry removed in version 100 is excluded at cutoff
major 120 and included at cutoff major 90. -/
theorem claim2_meta_include :
    (∀ (e : Entry) (version : String), e.metaPresent = false →
      metaInclude e version = true) ∧
    (∀ (e : Entry) (version : String), e.metaPresent = true →
      (metaInclude e version = false ↔
        ((∃ n, e.removedIn = some n ∧ n < majorVersion version) ∨
          ("UnusedResources".toList ∈ splitCommaChars (optStr e.toolsIgnore).toList ∧
            ¬(∃ n, e.removedIn = some n ∧ n < majorVersion version))))) ∧
    (∀ (secId : List String) (e : Entry) (relFile version : String),
      e.properties = [] →
      getIds (parseFile (.ok ⟨[⟨secId, [.entry e]⟩]⟩) relFile "source" [] version)
          relFile "source" =
        if metaInclude e version then [entryId secId e] else []) ∧
    metaInclude ⟨["my_string"], true, some 100, none, []⟩ "120.0" = false ∧
    metaInclude ⟨["my_string"], true, some 100, none, []⟩ "90.0" = true := by
  refine ⟨?_, ?_, ?_, by decide, by decide⟩
  · intro e version hmp
    unfold metaInclude
    rw [if_pos hmp]
  · intro e version hmp
    simp only [metaInclude]
    rw [if_neg (by rw [hmp]; simp)]
    cases hri : e.removedIn with
    | none =>
      simp
    | some n =>
      by_cases hlt : n < majorVersion version
      · simp [hlt]
      · simp [hlt]
  · intro secId e relFile version hprops
    by_cases hm : metaInclude e version = true
    · simp [parseFile, initEntry, procEntrySource, hm, hprops, getIds, setLoc,
        appendId, alGet, alSet]
    · simp [parseFile, initEntry, procEntrySource, hm, hprops, getIds, setLoc,
        appendId, alGet, alSet]

theorem claim2_meta_include_witness :
    metaInclude ⟨["a"], false, none, some "x", ["p"]⟩ "7.0" = true :=
  claim2_meta_include.1 ⟨["a"], false, none, some "x", ["p"]⟩ "7.0" rfl

/-- C3: every table produced by the fenix builder or the firefox builder
has a "source" entry for every file-key it contains, and stores an
identifier under a non-source locale only when that identifier is in the
same file-key's source list; parse_file preserves the latter invariant on
any table (for locale lists that do not contain the reserved name
"source", which is never a real locale code). -/
theorem claim3_builder_invariant :
    (∀ configs : List FenixConfig, (∀ cfg ∈ configs, "source" ∉ cfg.locales) →
      SrcInv (extractStringList configs).1 ∧ MemInv (extractStringList configs).1) ∧
    (∀ (files : List FxRefFile) (locales : List String)
        (out : List ((String × String) × FxParse)), "source" ∉ locales →
      SrcInv (extract_string_list files locales out).1 ∧
        MemInv (extract_string_list files locales out).1) ∧
    (∀ (pr : ParseResult) (relFile locale : String) (t : StringTable)
        (version : String),
      MemInv t → MemInv (parseFile pr relFile locale t version)) :=
  ⟨extractStringList_inv, extract_string_list_inv, MemInv_parseFile⟩

theorem claim3_builder_invariant_witness :
    SrcInv (extractStringList
        [⟨"fenix", [("f.xml", XmlParse.ok [⟨"a", none⟩])], ["it"],
          [("it", [("f.xml", XmlParse.ok [⟨"a", none⟩])])]⟩]).1 ∧
      MemInv (extractStringList
        [⟨"fenix", [("f.xml", XmlParse.ok [⟨"a", none⟩])], ["it"],
          [("it", [("f.xml", XmlParse.ok [⟨"a", none⟩])])]⟩]).1 :=
  claim3_builder_invariant.1
    [⟨"fenix", [("f.xml", XmlParse.ok [⟨"a", none⟩])], ["it"],
      [("it", [("f.xml", XmlParse.ok [⟨"a", none⟩])])]⟩]
    (by decide)

/-- C7: the fenix builder returns the locale list of the last
configuration, not the union of all configurations' locale lists: with a
first configuration whose locale list is [it] and a second whose list is
[fr], the returned list is [fr], while the union accumulated in the
unused all_locales variable does contain it. -/
theorem claim7_locales_last_config :
    (∀ (cfgs : List FenixConfig) (cfg : FenixConfig),
      (extractStringList (cfgs ++ [cfg])).2 = cfg.locales) ∧
    (extractStringList
        [⟨"fenix", [], ["it"], []⟩, ⟨"android-components", [], ["fr"], []⟩]).2 =
      ["fr"] ∧
    "it" ∈ allLocalesUnion
        [⟨"fenix", [], ["it"], []⟩, ⟨"android-components", [], ["fr"], []⟩] ∧
    "it" ∉ (extractStringList
        [⟨"fenix", [], ["it"], []⟩, ⟨"android-components", [], ["fr"], []⟩]).2 := by
  refine ⟨?_, by decide, by decide, by decide⟩
  intro cfgs cfg
  unfold extractStringList
  rw [List.foldl_append]
  rfl

/-- C8: on a filename following the product-underscore-version convention
(product without underscores, version components all digits), the parser
returns the dotted version and its first component; in particular
firefox_147_0.json parses to (147.0, 147) and fenix_100_1_2.json to
(100.1.2, 100). -/
theorem claim8_filename_roundtrip :
    (∀ (product c0 : List Char) (cs : List (List Char)),
      '_' ∉ product → (∀ comp ∈ c0 :: cs, ∀ c ∈ comp, c.isDigit = true) →
      get_version_from_filename
          (product ++ '_' :: (joinSep '_' (c0 :: cs) ++ '.' :: "json".toList)) =
        some (joinSep '.' (c0 :: cs), c0)) ∧
    get_version_from_filename "firefox_147_0.json".toList =
      some ("147.0".toList, "147".toList) ∧
    get_version_from_filename "fenix_100_1_2.json".toList =
      some ("100.1.2".toList, "100".toList) :=
  ⟨get_version_from_filename_format, by decide, by decide⟩

theorem claim8_filename_roundtrip_witness :
    get_version_from_filename
        ("firefox".toList ++ '_' ::
          (joinSep '_' [['1', '4', '7'], ['0']] ++ '.' :: "json".toList)) =
      some (joinSep '.' [['1', '4', '7'], ['0']], ['1', '4', '7']) :=
  claim8_filename_roundtrip.1 "firefox".toList ['1', '4', '7'] [['0']]
    (by decide) (by decide)

/-- C9 counterexample: in firefox extract_string_list a parse error on a
reference file does not leave the accumulated identifier list in the
table: the file's entry is popped, so a file whose parse yielded id1 and
then failed has no entry at all, while without the error its entry would
hold id1. -/
theorem claim9_counterexample :
    fxSourcePass [⟨"a.ftl", false, ["id1"], true⟩] = [] ∧
    alGet (fxSourcePass [⟨"a.ftl", false, ["id1"], true⟩]) "a.ftl" = none ∧
    fxSourcePass [⟨"a.ftl", false, ["id1"], false⟩] =
      [("a.ftl", [("source", ["id1"])])] :=
  ⟨rfl, rfl, rfl⟩

/-- C9 amended: extraction never raises (the model is total) and a failure
on one file never touches other files; in functions.parse_file a parse
error or unsupported format leaves every identifier list exactly as it
was; in firefox extract_string_list however a reference-file parse error
removes that file's entry (with anything accumulated for it) from the
table. -/
theorem claim9_failure_keeps_accumulated :
    (∀ (pr : ParseResult) (relFile locale : String) (t : StringTable)
        (version : String), pr = .unsupported ∨ pr = .failed →
      ∀ k l, getIds (parseFile pr relFile locale t version) k l = getIds t k l) ∧
    (∀ (t : StringTable) (f : FxRefFile), f.hidden = false → f.err = true →
      alGet (fxSourceStep t f) f.name = none) := by
  constructor
  · intro pr relFile locale t version hpr k l
    rcases hpr with h | h <;>
    · subst h
      simp only [parseFile]
      exact getIds_initEntry t relFile locale k l
  · intro t f h1 h2
    unfold fxSourceStep
    rw [if_neg (by rw [h1]; simp), if_pos h2]
    exact alGet_alErase_self t f.name

theorem claim9_failure_keeps_accumulated_witness :
    getIds
        (parseFile .failed "file.ftl" "it"
          [("file.ftl", [("source", ["a"]), ("it", ["x"])])] "1.0")
        "file.ftl" "it" =
      getIds [("file.ftl", [("source", ["a"]), ("it", ["x"])])] "file.ftl" "it" ∧
    alGet (fxSourceStep [] ⟨"a.ftl", false, ["id1"], true⟩) "a.ftl" = none :=
  ⟨claim9_failure_keeps_accumulated.1 .failed "file.ftl" "it"
      [("file.ftl", [("source", ["a"]), ("it", ["x"])])] "1.0" (Or.inr rfl)
      "file.ftl" "it",
    claim9_failure_keeps_accumulated.2 [] ⟨"a.ftl", false, ["id1"], true⟩ rfl rfl⟩

/-- C10: the filename-to-version parser fails (the assert on the regex
match fires, modelled by none) exactly on inputs with no underscore, and
under the precondition that the input contains an underscore it always
returns a value. -/
theorem claim10_assert_on_missing_underscore :
    (∀ f : List Char, '_' ∉ f → get_version_from_filename f = none) ∧
    (∀ f : List Char, '_' ∈ f → (get_version_from_filename f).isSome) := by
  constructor
  · intro f h
    exact (get_version_from_filename_none_iff f).mpr h
  · intro f h
    rw [Option.isSome_iff_ne_none]
    intro hnone
    exact (get_version_from_filename_none_iff f).mp hnone h

theorem claim10_assert_on_missing_underscore_witness :
    get_version_from_filename "firefoxjson".toList = none ∧
    (get_version_from_filename "firefox_147_0.json".toList).isSome :=
  ⟨claim10_assert_on_missing_underscore.1 "firefoxjson".toList (by decide),
    claim10_assert_on_missing_underscore.2 "firefox_147_0.json".toList (by decide)⟩
